import Mathlib

/-!
Verification of the avwx-api-core support layer: the expiring document
cache (`avwx_api_core/cache.py`), the request gate and response formatter
(`avwx_api_core/views.py`), and the token-format validator
(`avwx_api_core/validate.py`), shallowly embedded in Lean.

Documents are modelled as ordered association lists (Python dicts keep
insertion order); datetimes as wall-clock minutes plus an optional
timezone offset; the Mongo collection as a list of (table, key, document)
triples.
-/

namespace Avwx

/-- A Python `datetime`: wall-clock time in minutes together with an
optional timezone offset in minutes (`tzOffset = none` models a naive
datetime). The UTC instant of an aware datetime is `wall - offset`. -/
structure PyDateTime where
  wall : Int
  tzOffset : Option Int
deriving DecidableEq, Repr

/-- A JSON-like Python value as handled by the cache and the formatter. -/
inductive Value where
  | str : String → Value
  | int : Int → Value
  | bool : Bool → Value
  | null : Value
  | time : PyDateTime → Value
  | obj : List (String × Value) → Value
  | arr : List Value → Value

/-- A Python dict: an ordered association list (insertion order, no
duplicate keys in dicts produced by Python itself). -/
abbrev Doc := List (String × Value)

/-- `data[key]` lookup: first occurrence. -/
def lookupDoc : Doc → String → Option Value
  | [], _ => none
  | (k, v) :: rest, key => if k = key then some v else lookupDoc rest key

/-- `data[key] = val`: update the value in place at the existing entry
(keeping its position), else append a new entry — Python dict assignment. -/
def setItem : Doc → String → Value → Doc
  | [], key, val => [(key, val)]
  | (k, v) :: rest, key, val =>
    if k = key then (k, val) :: rest else (k, v) :: setItem rest key val

/-- `data.pop(key)`'s removal effect: drop the (first) entry for `key`. -/
def eraseKey : Doc → String → Doc
  | [], _ => []
  | (k, v) :: rest, key => if k = key then rest else (k, v) :: eraseKey rest key

/-- `list(data.keys())`. -/
def docKeys (d : Doc) : List String := d.map Prod.fst

/-- `isinstance(v, dict)`. -/
def isObjV : Value → Bool
  | .obj _ => true
  | _ => false

/-- The loop of `_replace_keys` (cache.py): iterate over the snapshot
`list(data.items())` while mutating the current dict `cur`.  For an entry
whose key equals `key`, `data[by_key] = data.pop(key)`; for an entry whose
snapshot value is a dict, `data[d_key] = _replace_keys(d_val, key, by_key)`.
When both apply (`d_key == key` with a dict value), the popped value stored
under `by_key` is the same object that the recursive call mutates in place,
so both `by_key` and the re-added `key` end up holding the recursed dict;
the extra `setItem cur2 by_key r` reproduces that aliasing effect.
(`data.pop(key)` on a missing key would raise `KeyError`; with distinct
snapshot keys the key is always present, and the model leaves `cur`
unchanged on that unreachable branch.) -/
def replaceKeysAux (key by_key : String) : List (String × Value) → Doc → Doc
  | [], cur => cur
  | (d_key, d_val) :: rest, cur =>
    let cur1 :=
      if d_key = key then
        match lookupDoc cur key with
        | some v => setItem (eraseKey cur key) by_key v
        | none => cur
      else cur
    match d_val with
    | .obj sub =>
      let r := Value.obj (replaceKeysAux key by_key sub sub)
      let cur2 := setItem cur1 d_key r
      let cur3 := if d_key = key then setItem cur2 by_key r else cur2
      replaceKeysAux key by_key rest cur3
    | _ => replaceKeysAux key by_key rest cur1
termination_by snapshot _ => sizeOf snapshot
decreasing_by all_goals simp_arith [*]

/-- `_replace_keys(data, key, by_key)` (cache.py): replaces recursively the
keys equal to `key` by `by_key`, recursing only into dict values. -/
def replaceKeys (data : Doc) (key by_key : String) : Doc :=
  replaceKeysAux key by_key data data

/-- `EXPIRES` (cache.py): table expiration in minutes. -/
def EXPIRES : List (String × Nat) := [("token", 15), ("airsigmet", 15)]

/-- `DEFAULT_EXPIRES` (cache.py). -/
def DEFAULT_EXPIRES : Nat := 2

/-- `dict.update` on a string-to-minutes table. -/
def updateTable : List (String × Nat) → List (String × Nat) → List (String × Nat)
  | base, [] => base
  | base, (k, v) :: rest => updateTable (setNat base k v) rest
where
  setNat : List (String × Nat) → String → Nat → List (String × Nat)
    | [], key, val => [(key, val)]
    | (k, v) :: rest, key, val =>
      if k = key then (k, val) :: rest else (k, v) :: setNat rest key val

/-- The `CacheManager` state: its `expires` table (`__init__` copies
`EXPIRES` and applies the constructor override with `dict.update`). -/
structure CacheManager where
  expires : List (String × Nat)

/-- `CacheManager.__init__(app, expires)`. -/
def mkCacheManager (override : Option (List (String × Nat))) : CacheManager :=
  ⟨match override with
   | none => EXPIRES
   | some [] => EXPIRES
   | some ov => updateTable EXPIRES ov⟩

/-- `self.expires.get(table, DEFAULT_EXPIRES)`. -/
def ttlOf (cm : CacheManager) (table : String) : Nat :=
  go cm.expires
where
  go : List (String × Nat) → Nat
    | [] => DEFAULT_EXPIRES
    | (k, v) :: rest => if k = table then v else go rest

/-- `CacheManager.has_expired(time, table)` (cache.py): `True` if the
datetime is missing (`if not time`) or older than the table's TTL.  A naive
datetime is first reinterpreted as UTC (`time.replace(tzinfo=timezone.utc)`),
and `datetime.now(tz=timezone.utc) > time + timedelta(minutes=minutes)`
compares UTC instants, i.e. `now > (wall - offset) + minutes`.
`now` is the current UTC instant in minutes.  (A stored `timestamp` that is
a truthy non-datetime value would raise `TypeError` in Python; the model's
callers only ever pass values extracted as datetimes.) -/
def has_expired (cm : CacheManager) (time : Option PyDateTime) (table : String)
    (now : Int) : Bool :=
  match time with
  | none => true
  | some t =>
    let t := if t.tzOffset.isNone then { t with tzOffset := some 0 } else t
    decide (now > (t.wall - t.tzOffset.getD 0) + (ttlOf cm table : Int))

/-- `item.get("timestamp")`, kept when it is a datetime.  A missing key is
`None` (always stale); a falsy non-datetime is likewise stale, matching
`if not time`. -/
def getTimestamp (d : Doc) : Option PyDateTime :=
  match lookupDoc d "timestamp" with
  | some (.time t) => some t
  | _ => none

/-- `CacheManager._include_item(item, table)`: `isinstance(item, dict)` and
not expired.  At both call sites the item is `None` or a dict. -/
def _include_item (cm : CacheManager) (item : Option Doc) (table : String)
    (now : Int) : Bool :=
  match item with
  | none => false
  | some d => ¬ has_expired cm (getTimestamp d) table now

/-- `_process_data(data)` (cache.py): shallow-copy, escape reserved keys,
then stamp `data["timestamp"] = datetime.now(tz=timezone.utc)`. -/
def _process_data (data : Doc) (now : Int) : Doc :=
  setItem (replaceKeys data "$" "_$") "timestamp" (.time ⟨now, some 0⟩)

/-- `str.lower()` restricted to ASCII (table names are ASCII report-type
identifiers). -/
def pyCharLower (c : Char) : Char :=
  if 'A' ≤ c ∧ c ≤ 'Z' then Char.ofNat (c.toNat + 32) else c

/-- `table.lower()`. -/
def pyLower (s : String) : String := String.mk (s.toList.map pyCharLower)

/-- The Mongo `cache` database: a list of (collection, `_id`, document)
triples, in insertion order.  The collection name is the lowercased table. -/
abbrev Store := List (String × String × Doc)

/-- `collection.find_one({"_id": key})`. -/
def findOne : Store → String → String → Option Doc
  | [], _, _ => none
  | (t, k, d) :: rest, tl, key =>
    if t = tl ∧ k = key then some d else findOne rest tl key

/-- `collection.find()`: every document of one collection. -/
def findAll : Store → String → List Doc
  | [], _ => []
  | (t, _, d) :: rest, tl =>
    if t = tl then d :: findAll rest tl else findAll rest tl

/-- Applying a Mongo `$set` update document: set each field in order. -/
def mergeSet (existing : Doc) (updates : Doc) : Doc :=
  updates.foldl (fun d kv => setItem d kv.1 kv.2) existing

/-- One `update_one({"_id": key}, {"$set": processed}, upsert=True)`:
`$set` into the matched document, or insert `{"_id": key}` plus the fields. -/
def upsertOne : Store → String → String → Doc → Store
  | [], tl, key, p => [(tl, key, mergeSet [("_id", .str key)] p)]
  | (t, k, d) :: rest, tl, key, p =>
    if t = tl ∧ k = key then (t, k, mergeSet d p) :: rest
    else (t, k, d) :: upsertOne rest tl key p

/-- `CacheManager.get(table, key, force)` (cache.py): `None` without a
store handle; otherwise `find_one`, un-escape reserved keys, and return the
document unless it is stale (unless `force`). -/
def cacheGet (cm : CacheManager) (mdb : Option Store) (table key : String)
    (force : Bool) (now : Int) : Option Doc :=
  match mdb with
  | none => none
  | some s =>
    let data := (findOne s (pyLower table) key).map (replaceKeys · "_$" "$")
    if force then data
    else if _include_item cm data table now then data
    else none

/-- `CacheManager.all(table, force)` (cache.py): `[]` without a store
handle; otherwise every document of the collection, un-escaped, filtered by
staleness unless `force`. -/
def cacheAll (cm : CacheManager) (mdb : Option Store) (table : String)
    (force : Bool) (now : Int) : List Doc :=
  match mdb with
  | none => []
  | some s =>
    let data := (findAll s (pyLower table)).map (replaceKeys · "_$" "$")
    if force then data
    else data.filter (fun i => _include_item cm (some i) table now)

/-- `CacheManager.update(table, key, data)` (cache.py): no-op without a
store handle, else one upsert of `_process_data(data)`. -/
def cacheUpdate (mdb : Option Store) (table key : String) (data : Doc)
    (now : Int) : Option Store :=
  mdb.map fun s => upsertOne s (pyLower table) key (_process_data data now)

/-- `CacheManager.update_many(table, keys, data)` (cache.py): returns
immediately without a store handle or when `data` is empty (`not data`);
otherwise one unordered bulk upsert per `zip(keys, data)` pair. -/
def cacheUpdateMany (mdb : Option Store) (table : String) (keys : List String)
    (data : List Doc) (now : Int) : Option Store :=
  match mdb with
  | none => none
  | some s =>
    if data.isEmpty then some s
    else
      some ((keys.zip data).foldl
        (fun st kd => upsertOne st (pyLower table) kd.1 (_process_data kd.2 now)) s)

/-- `isinstance(v, list)`. -/
def isArrV : Value → Bool
  | .arr _ => true
  | _ => false

/-- `if key in self.key_repl: key = self.key_repl[key]` (views.py). -/
def lookupRepl : List (String × String) → String → String
  | [], key => key
  | (k, v) :: rest, key => if k = key then v else lookupRepl rest key

mutual

/-- `BaseView.format_output(output, remove, filter, ignore)` (views.py):
recursively replaces or removes keys.  Lists map the function over their
items; non-dict non-list values are returned unchanged; dicts are rebuilt
by the entry loop `formatFields`. -/
def format_output (key_repl : List (String × String)) :
    Value → List String → List String → List String → Value
  | .arr items, remove, filter, ignore =>
    .arr (formatList key_repl items remove filter ignore)
  | .obj fields, remove, filter, ignore =>
    .obj (formatFields key_repl fields [] remove filter ignore)
  | v, _, _, _ => v

/-- The list comprehension of `format_output` over a list output. -/
def formatList (key_repl : List (String × String)) :
    List Value → List String → List String → List String → List Value
  | [], _, _, _ => []
  | v :: rest, remove, filter, ignore =>
    format_output key_repl v remove filter ignore ::
      formatList key_repl rest remove filter ignore

/-- The entry loop of `format_output`: for each `key, val` of the output
dict, in order — keep verbatim if `key in ignore`; else drop if
`key in remove`; else rename via `key_repl`; recurse into dict/list
values; finally `resp[key] = val` only if `not filter or key in filter`,
where `key` is the possibly renamed key. -/
def formatFields (key_repl : List (String × String)) :
    List (String × Value) → Doc → List String → List String → List String → Doc
  | [], resp, _, _, _ => resp
  | (key, val) :: rest, resp, remove, filter, ignore =>
    if key ∈ ignore then
      formatFields key_repl rest (setItem resp key val) remove filter ignore
    else if key ∈ remove then
      formatFields key_repl rest resp remove filter ignore
    else
      let key2 := lookupRepl key_repl key
      let val2 := if isObjV val || isArrV val then
          format_output key_repl val remove filter ignore
        else val
      if filter.isEmpty ∨ key2 ∈ filter then
        formatFields key_repl rest (setItem resp key2 val2) remove filter ignore
      else
        formatFields key_repl rest resp remove filter ignore

end

/-- `Params` (structs.py). -/
structure Params where
  format : String
  remove : List String
  filter : List String

/-- `DEFAULT_PARAMS` (structs.py). -/
def DEFAULT_PARAMS : Params := ⟨"json", [], []⟩

/-- `key in output` for the document: dict key membership; on a list,
Python `in` compares `"error"`/meta against the elements (string equality;
comparisons with non-strings are `False`).  On a scalar Python would raise
`TypeError`; `make_response` is only ever given dict or list output. -/
def containsTop (v : Value) (k : String) : Bool :=
  match v with
  | .obj fields => (lookupDoc fields k).isSome
  | .arr items => items.any fun i =>
      match i with
      | .str s => s = k
      | _ => false
  | _ => false

/-- `output[k] = x` at the top level of a dict output (on any other value
Python would raise; unreachable at the call sites the theorems use). -/
def setTopKey (v : Value) (k : String) (x : Value) : Value :=
  match v with
  | .obj fields => .obj (setItem fields k x)
  | w => w

/-- Ensuring the meta block exists and setting `output[meta]["note"]` on a
dict output (the tail of `make_response`'s note injection). -/
def noteStepObj (n : String) (meta : String) (fields : Doc) : Doc :=
  let fields1 :=
    if (lookupDoc fields meta).isSome then fields
    else setItem fields meta (.obj [])
  match lookupDoc fields1 meta with
  | some (.obj mfields) => setItem fields1 meta (.obj (setItem mfields "note" (.str n)))
  | _ => fields1

/-- `isinstance(output, dict)` guard of the note injection. -/
def noteStepVal (n : String) (meta : String) (out2 : Value) : Value :=
  match out2 with
  | .obj fields => .obj (noteStepObj n meta fields)
  | o => o

/-- The note-injection tail of `make_response`: `if self.note and
isinstance(output, dict)` (falsy for `None` and the empty string), ensure
the meta block exists and set `output[meta]["note"]`. -/
def noteStep (note : Option String) (meta : String) (out2 : Value) : Value :=
  match note with
  | some n => if n ≠ "" then noteStepVal n meta out2 else out2
  | none => out2

/-- `BaseView.make_response(output, params, code, meta, root)` (views.py),
up to (and excluding) wire serialization: extends `remove` with the
endpoint's `key_remv`, formats with `ignore = [meta]`, injects a
``timestamp`` when the result has an `error` key and no meta block, and
injects the endpoint note under the meta block (`if self.note` is falsy
for `None` and for the empty string).  The note injection
`output[meta]["note"] = self.note` requires the existing meta value to be
a dict; otherwise Python would raise `TypeError` and the model returns the
document unchanged. -/
def make_response (key_repl : List (String × String)) (key_remv : List String)
    (note : Option String) (output : Value) (params : Params) (meta : String)
    (now : Int) : Value :=
  let remove := params.remove ++ key_remv
  let out1 := format_output key_repl output remove params.filter [meta]
  let out2 :=
    if containsTop out1 "error" ∧ ¬ containsTop out1 meta then
      setTopKey out1 "timestamp" (.time ⟨now, some 0⟩)
    else out1
  noteStep note meta out2

/-- Modelled from the spec: the external `Token` entity
(`avwx_api_core/token.py` is not part of the sources) — "has an active
flag, a plan-tier value, a privileged/developer flag that bypasses tier
checks". -/
structure Token where
  active : Bool
  is_developer : Bool
  type : String
deriving DecidableEq, Repr

/-- Modelled from the spec: `tierIn(allowedTiers) → bool` — the token's
tier is in the endpoint's whitelist.  Only ever called with a truthy
whitelist. -/
def Token.valid_type (t : Token) (plan_types : List String) : Bool :=
  plan_types.contains t.type

/-- Modelled from the spec: the external token collaborator —
`lookup(tokenValue) → Token|absent`, `increment(token) → bool` (`False`
signals the rate limit was exceeded), and the global gating flag
`active`. -/
structure TokenManager where
  active : Bool
  get : String → Option Token
  increment : Token → Bool

/-- Truthiness of `self.plan_types` (`None` or an empty tuple is falsy). -/
def planTruthy : Option (List String) → Bool
  | none => false
  | some [] => false
  | some (_ :: _) => true

/-- `AuthView._can_access(token)` (views.py):
`not self.plan_types or token.is_developer or token.valid_type(self.plan_types)`. -/
def _can_access (plan_types : Option (List String)) (t : Token) : Bool :=
  !planTruthy plan_types || t.is_developer || t.valid_type (plan_types.getD [])

/-- `AuthView._unauthorized_token(token)` (views.py):
`token is None or not token.active or not self._can_access(token)`. -/
def _unauthorized_token (plan_types : Option (List String)) :
    Option Token → Bool
  | none => true
  | some t => !t.active || !_can_access plan_types t

/-- Python `str.split()` with no arguments: split on whitespace runs,
dropping empty chunks (accumulator holds the current chunk reversed). -/
def splitWsAux : List Char → List Char → List (List Char)
  | [], acc => if acc.isEmpty then [] else [acc.reverse]
  | c :: rest, acc =>
    if c.isWhitespace then
      if acc.isEmpty then splitWsAux rest []
      else acc.reverse :: splitWsAux rest []
    else splitWsAux rest (c :: acc)

/-- `s.split()`. -/
def pySplitWs (cs : List Char) : List (List Char) := splitWsAux cs []

/-- One character of the `r"[A-Za-z0-9\-\_]+"` token pattern. -/
def tokenChar (c : Char) : Bool :=
  (('A' ≤ c ∧ c ≤ 'Z') ∨ ('a' ≤ c ∧ c ≤ 'z') ∨ ('0' ≤ c ∧ c ≤ '9')
    ∨ c = '-' ∨ c = '_')

/-- The outcome of applying the `validate.Token` schema (validate.py):
`ok` with the extracted value, `invalid` when a validator raises
`voluptuous.Invalid` (caught by `validate_token` → 401), or `error` for the
uncaught `IndexError` that `lambda x: x.strip().split()[-1]` raises on a
whitespace-only string (voluptuous converts only `ValueError` and `Invalid`
raised by a callable validator; an `IndexError` propagates). -/
inductive TokenValidation where
  | ok (value : String)
  | invalid
  | error
deriving DecidableEq, Repr

/-- `validate.Token` (validate.py): `All(str, Length(min=10),
lambda x: x.strip().split()[-1], MatchesRE("token", r"[A-Za-z0-9\-\_]+"))`
applied to the extracted auth value (`None` when neither header nor query
parameter is present; the `str` type check rejects `None`).  `strip()`
before `split()` is redundant since `split()` already discards surrounding
whitespace.  The regex `fullmatch` succeeds iff every character of the
(nonempty) last chunk is in the class. -/
def validateTokenValue : Option String → TokenValidation
  | none => .invalid
  | some s =>
    if s.length < 10 then .invalid
    else
      match (pySplitWs s.toList).getLast? with
      | none => .error
      | some last => if last.all tokenChar then .ok (String.mk last) else .invalid

/-- `AuthView.validate_token(token_manager)` (views.py): the request gate.
Returns `none` when the token-format validation raises an exception other
than `Invalid`/`MultipleInvalid` (no response is produced); otherwise
`some (code, token)` as returned by the source.  `auth` is the value
extracted by `_auth_token()`. -/
def validate_token (plan_types : Option (List String)) (tm : TokenManager)
    (auth : Option String) : Option (Nat × Option Token) :=
  if !tm.active then some (200, none)
  else
    match validateTokenValue auth with
    | .error => none
    | .invalid => some (401, none)
    | .ok s =>
      let t := tm.get s
      if _unauthorized_token plan_types t then some (403, t)
      else
        match t with
        | some tok => if !tm.increment tok then some (429, t) else some (200, t)
        | none => some (200, none)

/-- `VALIDATION_ERROR_MESSAGES` (views.py); other codes would raise
`KeyError` and are never passed. -/
def validationErrorMessage (code : Nat) : String :=
  if code = 401 then
    "You are missing the \"Authorization\" header or \"token\" parameter"
  else if code = 403 then
    "Your auth token is not allowed to access this resource"
  else if code = 429 then
    "Your auth token has hit it\x27s daily rate limit. Considder upgrading your plan"
  else ""

/-- Python truthiness of the loaded example payload (`if data:`). -/
def valueTruthy : Value → Bool
  | .obj f => !f.isEmpty
  | .arr l => !l.isEmpty
  | .str s => !s.isEmpty
  | .int n => decide (n ≠ 0)
  | .bool b => b
  | .null => false
  | .time _ => true

/-- `AuthView.make_example_response(error_code, report_type, token)`
(views.py), with the endpoint's `get_example_file(report_type)` result
passed in as `ex`.  The 403 message is specialized by the token
state; any truthy example gains the testing suffix; a dict example gets
`data["meta"] = {"validation_error": msg}`, a list example gets the
message dict inserted at position 0, and anything else is returned
unchanged. -/
def make_example_response (plan_types : Option (List String)) (ex : Value)
    (error_code : Nat) (token : Option Token) : Value :=
  let msg := validationErrorMessage error_code
  let msg :=
    if error_code = 403 then
      match token with
      | none => msg ++ ". Token value could not be found"
      | some t =>
        if !t.active then msg ++ ". Token marked as inactive"
        else if !t.valid_type (plan_types.getD []) then
          msg ++ ". Plan \"" ++ t.type ++ "\" must be "
            ++ String.intercalate "/" (plan_types.getD [])
        else msg
    else msg
  let msg := if valueTruthy ex then
      msg ++ ". Here\x27s an example response for testing purposes"
    else msg
  match ex with
  | .obj fields => .obj (setItem fields "meta" (.obj [("validation_error", .str msg)]))
  | .arr items => .arr (.obj [("validation_error", .str msg)] :: items)
  | v => v

/-! ### Association-list lemmas -/

theorem lookupDoc_setItem_self (d : Doc) (k : String) (v : Value) :
    lookupDoc (setItem d k v) k = some v := by
  induction d with
  | nil => simp [setItem, lookupDoc]
  | cons hd rest ih =>
    obtain ⟨k2, v2⟩ := hd
    by_cases h : k2 = k <;> simp [setItem, lookupDoc, h, ih]

theorem lookupDoc_setItem_ne (d : Doc) (k k2 : String) (v : Value) (h : k2 ≠ k) :
    lookupDoc (setItem d k2 v) k = lookupDoc d k := by
  induction d with
  | nil => simp [setItem, lookupDoc, h]
  | cons hd rest ih =>
    obtain ⟨k3, v3⟩ := hd
    by_cases h3 : k3 = k2
    · subst h3; simp [setItem, lookupDoc, h]
    · simp [setItem, lookupDoc, h3, ih]

theorem lookupDoc_eraseKey_ne (d : Doc) (k k2 : String) (h : k2 ≠ k) :
    lookupDoc (eraseKey d k2) k = lookupDoc d k := by
  induction d with
  | nil => simp [eraseKey]
  | cons hd rest ih =>
    obtain ⟨k3, v3⟩ := hd
    by_cases h3 : k3 = k2
    · subst h3; simp [eraseKey, lookupDoc, h]
    · simp [eraseKey, lookupDoc, h3, ih]

theorem lookupDoc_eq_none (d : Doc) (k : String) (h : k ∉ docKeys d) :
    lookupDoc d k = none := by
  induction d with
  | nil => simp [lookupDoc]
  | cons hd rest ih =>
    obtain ⟨k2, v2⟩ := hd
    simp only [docKeys, List.map_cons, List.mem_cons] at h
    push_neg at h
    simp only [docKeys, List.map] at ih
    simp [lookupDoc, Ne.symm h.1, ih h.2]

theorem lookupDoc_isSome_iff (d : Doc) (k : String) :
    (lookupDoc d k).isSome ↔ k ∈ docKeys d := by
  induction d with
  | nil => simp [lookupDoc, docKeys]
  | cons hd rest ih =>
    obtain ⟨k2, v2⟩ := hd
    by_cases h : k2 = k <;> simp [lookupDoc, docKeys, h, ih] <;> tauto

theorem lookupDoc_append_left (pre d : Doc) (k : String) (h : k ∉ docKeys pre) :
    lookupDoc (pre ++ d) k = lookupDoc d k := by
  induction pre with
  | nil => simp
  | cons hd rest ih =>
    obtain ⟨k2, v2⟩ := hd
    simp only [docKeys, List.map_cons, List.mem_cons] at h
    push_neg at h
    simpa [lookupDoc, Ne.symm h.1] using ih (by simpa [docKeys] using h.2)

theorem eraseKey_append_left (pre d : Doc) (k : String) (h : k ∉ docKeys pre) :
    eraseKey (pre ++ d) k = pre ++ eraseKey d k := by
  induction pre with
  | nil => simp
  | cons hd rest ih =>
    obtain ⟨k2, v2⟩ := hd
    simp only [docKeys, List.map_cons, List.mem_cons] at h
    push_neg at h
    simp [eraseKey, Ne.symm h.1, ih (by simpa [docKeys] using h.2)]

theorem setItem_append_left (pre d : Doc) (k : String) (v : Value)
    (h : k ∉ docKeys pre) :
    setItem (pre ++ d) k v = pre ++ setItem d k v := by
  induction pre with
  | nil => simp
  | cons hd rest ih =>
    obtain ⟨k2, v2⟩ := hd
    simp only [docKeys, List.map_cons, List.mem_cons] at h
    push_neg at h
    simp [setItem, Ne.symm h.1, ih (by simpa [docKeys] using h.2)]

theorem setItem_notmem (d : Doc) (k : String) (v : Value) (h : k ∉ docKeys d) :
    setItem d k v = d ++ [(k, v)] := by
  induction d with
  | nil => simp [setItem]
  | cons hd rest ih =>
    obtain ⟨k2, v2⟩ := hd
    simp only [docKeys, List.map_cons, List.mem_cons] at h
    push_neg at h
    simp [setItem, Ne.symm h.1, ih (by simpa [docKeys] using h.2)]

theorem docKeys_append (a b : Doc) : docKeys (a ++ b) = docKeys a ++ docKeys b := by
  simp [docKeys]

theorem docKeys_setItem_mem (d : Doc) (k : String) (v : Value)
    (h : k ∈ docKeys d) : docKeys (setItem d k v) = docKeys d := by
  induction d with
  | nil => simp [docKeys] at h
  | cons hd rest ih =>
    obtain ⟨k2, v2⟩ := hd
    by_cases h2 : k2 = k
    · subst h2; simp [setItem, docKeys]
    · have h3 : k ∈ docKeys rest := by
        simp only [docKeys, List.map_cons, List.mem_cons] at h
        rcases h with h | h
        · exact absurd h (Ne.symm h2)
        · simpa [docKeys] using h
      have h4 := ih h3
      simp only [docKeys] at h4
      simp [setItem, h2, docKeys, h4]

theorem docKeys_setItem_notmem (d : Doc) (k : String) (v : Value)
    (h : k ∉ docKeys d) : docKeys (setItem d k v) = docKeys d ++ [k] := by
  rw [setItem_notmem d k v h, docKeys_append]
  simp [docKeys]

theorem nodup_setItem (d : Doc) (k : String) (v : Value)
    (h : (docKeys d).Nodup) : (docKeys (setItem d k v)).Nodup := by
  by_cases h2 : k ∈ docKeys d
  · rwa [docKeys_setItem_mem d k v h2]
  · rw [docKeys_setItem_notmem d k v h2]
    simp [List.nodup_append, h, h2]

theorem docKeys_eraseKey_sublist (d : Doc) (k : String) :
    (docKeys (eraseKey d k)).Sublist (docKeys d) := by
  induction d with
  | nil => simp [eraseKey]
  | cons hd rest ih =>
    obtain ⟨k2, v2⟩ := hd
    by_cases h : k2 = k
    · simp only [eraseKey, if_pos h, docKeys, List.map_cons]
      exact (List.sublist_cons_self _ _)
    · simp only [eraseKey, if_neg h, docKeys, List.map_cons]
      exact List.Sublist.cons₂ _ ih

theorem nodup_eraseKey (d : Doc) (k : String) (h : (docKeys d).Nodup) :
    (docKeys (eraseKey d k)).Nodup :=
  (docKeys_eraseKey_sublist d k).nodup h

theorem mem_of_lookupDoc (d : Doc) (k : String) (v : Value)
    (h : lookupDoc d k = some v) : k ∈ docKeys d := by
  have := lookupDoc_isSome_iff d k
  simp [h] at this
  exact this

/-! ### Lemmas about Mongo-level operations -/

theorem lookupDoc_mergeSet_notmem (p : Doc) :
    ∀ (e : Doc) (k : String), k ∉ docKeys p →
      lookupDoc (mergeSet e p) k = lookupDoc e k := by
  induction p with
  | nil => intro e k _; rfl
  | cons hd rest ih =>
    intro e k h
    obtain ⟨k2, v2⟩ := hd
    simp only [docKeys, List.map_cons, List.mem_cons] at h
    push_neg at h
    have step : mergeSet e ((k2, v2) :: rest) = mergeSet (setItem e k2 v2) rest := rfl
    rw [step, ih (setItem e k2 v2) k (by simpa [docKeys] using h.2),
      lookupDoc_setItem_ne e k k2 v2 (Ne.symm h.1)]

theorem lookupDoc_mergeSet (p : Doc) :
    ∀ (e : Doc) (k : String) (v : Value), (docKeys p).Nodup →
      lookupDoc p k = some v → lookupDoc (mergeSet e p) k = some v := by
  induction p with
  | nil => intro e k v _ h; simp [lookupDoc] at h
  | cons hd rest ih =>
    intro e k v hnd h
    obtain ⟨k2, v2⟩ := hd
    have step : mergeSet e ((k2, v2) :: rest) = mergeSet (setItem e k2 v2) rest := rfl
    simp only [docKeys, List.map_cons, List.nodup_cons] at hnd
    by_cases h2 : k2 = k
    · subst h2
      rw [lookupDoc, if_pos rfl] at h
      cases h
      rw [step, lookupDoc_mergeSet_notmem rest (setItem e k2 v) k2
        (by simpa [docKeys] using hnd.1), lookupDoc_setItem_self]
    · simp only [lookupDoc, if_neg h2] at h
      rw [step]
      exact ih (setItem e k2 v2) k v (by simpa [docKeys] using hnd.2) h

theorem findOne_upsertOne (s : Store) (tl key : String) (p : Doc) :
    ∃ e : Doc, findOne (upsertOne s tl key p) tl key = some (mergeSet e p) := by
  induction s with
  | nil =>
    refine ⟨[("_id", Value.str key)], ?_⟩
    simp [upsertOne, findOne]
  | cons hd rest ih =>
    obtain ⟨t, k, d⟩ := hd
    by_cases h : t = tl ∧ k = key
    · refine ⟨d, ?_⟩
      simp [upsertOne, findOne, h]
    · obtain ⟨e, he⟩ := ih
      refine ⟨e, ?_⟩
      simp [upsertOne, findOne, h, he]

theorem findOne_upsertOne_ne (s : Store) (tl key tl2 key2 : String) (p : Doc)
    (h : ¬(tl = tl2 ∧ key = key2)) :
    findOne (upsertOne s tl key p) tl2 key2 = findOne s tl2 key2 := by
  induction s with
  | nil =>
    simp only [upsertOne, findOne]
    rw [if_neg h]
  | cons hd rest ih =>
    obtain ⟨t, k, d⟩ := hd
    by_cases h2 : t = tl ∧ k = key
    · obtain ⟨rfl, rfl⟩ := h2
      simp only [upsertOne, if_pos (show t = t ∧ k = k from ⟨rfl, rfl⟩), findOne]
      rw [if_neg h, if_neg h]
    · simp [upsertOne, findOne, h2, ih]

/-! ### Structural lemmas about the key-replacement loop -/

/-- The effect of one iteration of the `_replace_keys` loop on the current
dict (proof-layer restatement of the body of `replaceKeysAux`). -/
def stepRK (key by_key d_key : String) (d_val : Value) (cur : Doc) : Doc :=
  let cur1 :=
    if d_key = key then
      match lookupDoc cur key with
      | some v => setItem (eraseKey cur key) by_key v
      | none => cur
    else cur
  match d_val with
  | .obj sub =>
    let r := Value.obj (replaceKeys sub key by_key)
    let cur2 := setItem cur1 d_key r
    if d_key = key then setItem cur2 by_key r else cur2
  | _ => cur1

theorem replaceKeysAux_cons (key by_key d_key : String) (d_val : Value)
    (rest : List (String × Value)) (cur : Doc) :
    replaceKeysAux key by_key ((d_key, d_val) :: rest) cur
      = replaceKeysAux key by_key rest (stepRK key by_key d_key d_val cur) := by
  cases d_val <;> simp only [replaceKeysAux, stepRK, replaceKeys]

theorem nodup_stepRK (key by_key d_key : String) (d_val : Value) (cur : Doc)
    (h : (docKeys cur).Nodup) :
    (docKeys (stepRK key by_key d_key d_val cur)).Nodup := by
  have h1 : (docKeys (match lookupDoc cur key with
      | some v => setItem (eraseKey cur key) by_key v
      | none => cur)).Nodup := by
    split
    · exact nodup_setItem _ _ _ (nodup_eraseKey _ _ h)
    · exact h
  have h2 : (docKeys (if d_key = key then
      match lookupDoc cur key with
      | some v => setItem (eraseKey cur key) by_key v
      | none => cur
    else cur)).Nodup := by
    split
    · exact h1
    · exact h
  cases d_val with
  | obj sub =>
    simp only [stepRK]
    split
    · exact nodup_setItem _ _ _ (nodup_setItem _ _ _ h1)
    · exact nodup_setItem _ _ _ h
  | str s => exact h2
  | int n => exact h2
  | bool b => exact h2
  | null => exact h2
  | time t => exact h2
  | arr l => exact h2

theorem nodup_replaceKeysAux (key by_key : String) :
    ∀ (snapshot : List (String × Value)) (cur : Doc),
      (docKeys cur).Nodup → (docKeys (replaceKeysAux key by_key snapshot cur)).Nodup := by
  intro snapshot
  induction snapshot with
  | nil => intro cur h; simpa [replaceKeysAux] using h
  | cons hd rest ih =>
    intro cur h
    obtain ⟨d_key, d_val⟩ := hd
    rw [replaceKeysAux_cons]
    exact ih _ (nodup_stepRK key by_key d_key d_val cur h)

theorem nodup_replaceKeys (d : Doc) (key by_key : String)
    (h : (docKeys d).Nodup) : (docKeys (replaceKeys d key by_key)).Nodup :=
  nodup_replaceKeysAux key by_key d d h

theorem lookupDoc_stepRK (key by_key d_key k : String) (d_val : Value)
    (w : Value) (cur : Doc) (hk1 : k ≠ key) (hk2 : k ≠ by_key)
    (hdk : d_key = k → isObjV d_val = false)
    (h : lookupDoc cur k = some w) :
    lookupDoc (stepRK key by_key d_key d_val cur) k = some w := by
  have h1 : lookupDoc (match lookupDoc cur key with
      | some v => setItem (eraseKey cur key) by_key v
      | none => cur) k = some w := by
    split
    · rw [lookupDoc_setItem_ne _ _ _ _ (Ne.symm hk2),
        lookupDoc_eraseKey_ne _ _ _ (Ne.symm hk1)]
      exact h
    · exact h
  have h2 : lookupDoc (if d_key = key then
      match lookupDoc cur key with
      | some v => setItem (eraseKey cur key) by_key v
      | none => cur
    else cur) k = some w := by
    split
    · exact h1
    · exact h
  cases d_val with
  | obj sub =>
    have hd2 : d_key ≠ k := by
      intro he
      exact absurd (hdk he) (by simp [isObjV])
    simp only [stepRK]
    split
    · rw [lookupDoc_setItem_ne _ _ _ _ (Ne.symm hk2),
        lookupDoc_setItem_ne _ _ _ _ hd2]
      exact h1
    · rw [lookupDoc_setItem_ne _ _ _ _ hd2]
      exact h
  | str s => exact h2
  | int n => exact h2
  | bool b => exact h2
  | null => exact h2
  | time t => exact h2
  | arr l => exact h2

/-- The loop never rewrites an entry whose key differs from `key` and
`by_key` and whose snapshot occurrences are not dict-valued: its looked-up
value is preserved. -/
theorem replaceKeysAux_preserves (key by_key k : String) (w : Value)
    (hk1 : k ≠ key) (hk2 : k ≠ by_key) :
    ∀ (snapshot : List (String × Value)) (cur : Doc),
      (∀ v : Value, (k, v) ∈ snapshot → isObjV v = false) →
      lookupDoc cur k = some w →
      lookupDoc (replaceKeysAux key by_key snapshot cur) k = some w := by
  intro snapshot
  induction snapshot with
  | nil => intro cur _ h; simpa [replaceKeysAux] using h
  | cons hd rest ih =>
    intro cur hsnap h
    obtain ⟨d_key, d_val⟩ := hd
    rw [replaceKeysAux_cons]
    refine ih _ (fun v hv => hsnap v (List.mem_cons_of_mem _ hv)) ?_
    refine lookupDoc_stepRK key by_key d_key k d_val w cur hk1 hk2 ?_ h
    intro he
    subst he
    exact hsnap d_val (List.mem_cons_self _ _)

theorem lookupDoc_of_mem_nodup (d : Doc) (k : String) (v : Value)
    (hnd : (docKeys d).Nodup) (h : (k, v) ∈ d) : lookupDoc d k = some v := by
  induction d with
  | nil => simp at h
  | cons hd rest ih =>
    obtain ⟨k2, v2⟩ := hd
    simp only [docKeys, List.map_cons, List.nodup_cons] at hnd
    rcases List.mem_cons.1 h with h2 | h2
    · rw [Prod.mk.injEq] at h2
      obtain ⟨rfl, rfl⟩ := h2
      simp [lookupDoc]
    · have hk2 : k2 ≠ k := by
        intro he; subst he
        exact hnd.1 (by simpa [docKeys] using List.mem_map_of_mem Prod.fst h2)
      simp [lookupDoc, hk2, ih (by simpa [docKeys] using hnd.2) h2]

theorem mem_of_mem_lookupDoc (d : Doc) (k : String) (v : Value)
    (h : lookupDoc d k = some v) : (k, v) ∈ d := by
  induction d with
  | nil => simp [lookupDoc] at h
  | cons hd rest ih =>
    obtain ⟨k2, v2⟩ := hd
    by_cases h2 : k2 = k
    · subst h2
      rw [lookupDoc, if_pos rfl] at h
      cases h
      exact List.mem_cons_self _ _
    · simp only [lookupDoc, if_neg h2] at h
      exact List.mem_cons_of_mem _ (ih h)

/-! ### Reference shape of the key replacement on safe documents -/

/-- The re-added reserved key: after the loop processes the `key` entry its
value reappears under `by_key` at the end of the dict. -/
def dollarTail (key by_key : String) (d : Doc) : Doc :=
  match lookupDoc d key with
  | some w => [(by_key, w)]
  | none => []

mutual

/-- Reference shape of the transform on one value: dicts are transformed
recursively, everything else is untouched. -/
def replTransVal (key by_key : String) : Value → Value
  | .obj sub => .obj (replTransEntries key by_key sub ++ dollarTail key by_key sub)
  | v => v

/-- Reference shape of the transform on one level of entries: keep entries
in order, drop the `key` entry, and transform nested dict values. -/
def replTransEntries (key by_key : String) : List (String × Value) → List (String × Value)
  | [] => []
  | (k, v) :: rest =>
    if k = key then replTransEntries key by_key rest
    else (k, replTransVal key by_key v) :: replTransEntries key by_key rest

end

/-- Reference transform of a whole (safe) document. -/
def replTrans (key by_key : String) (d : Doc) : Doc :=
  replTransEntries key by_key d ++ dollarTail key by_key d

mutual

/-- Safety of one value: a dict value must have distinct keys avoiding
`by_key` and recursively safe entries. -/
def safeVal (key by_key : String) : Value → Bool
  | .obj sub =>
    decide ((docKeys sub).Nodup) && decide (by_key ∉ docKeys sub)
      && safeEntries key by_key sub
  | _ => true

/-- Safety of one level of entries for the `(key, by_key)` renaming: every
dict-valued entry has a key other than `key` (the in-place mutation aliases
`key` and `by_key` on dict-valued `key` entries) and a recursively safe
value. -/
def safeEntries (key by_key : String) : List (String × Value) → Bool
  | [] => true
  | (k, v) :: rest =>
    (!isObjV v || decide (k ≠ key)) && safeVal key by_key v
      && safeEntries key by_key rest

end

/-- A document is safe for the renaming when its keys are distinct, none of
them is `by_key`, and `safeEntries` holds recursively. -/
def safeDocB (key by_key : String) (d : Doc) : Bool :=
  decide ((docKeys d).Nodup) && decide (by_key ∉ docKeys d)
    && safeEntries key by_key d

theorem nodup_append_one (l : List String) (b : String)
    (h : l.Nodup) (hb : b ∉ l) : (l ++ [b]).Nodup := by
  rw [List.nodup_append]
  refine ⟨h, List.nodup_singleton b, ?_⟩
  intro a ha hab
  rw [List.mem_singleton] at hab
  exact hb (hab ▸ ha)

@[simp] theorem docKeys_nil : docKeys ([] : Doc) = [] := rfl

@[simp] theorem docKeys_cons (k : String) (v : Value) (d : Doc) :
    docKeys ((k, v) :: d) = k :: docKeys d := rfl

theorem stepRK_nonobj (key by_key d_key : String) (d_val : Value) (cur : Doc)
    (hobj : isObjV d_val = false) :
    stepRK key by_key d_key d_val cur
      = if d_key = key then
          match lookupDoc cur key with
          | some v => setItem (eraseKey cur key) by_key v
          | none => cur
        else cur := by
  cases d_val
  case obj sub => simp [isObjV] at hobj
  all_goals rfl

/-- One loop step on the (safe) entry holding the reserved key: the entry
is popped and its value re-appended under `by_key`. -/
theorem stepRK_key_nonobj (key by_key : String) (d_val : Value) (pre rest2 : Doc)
    (hobj : isObjV d_val = false)
    (hkpre : key ∉ docKeys pre)
    (hbypre : by_key ∉ docKeys pre) (hbyr : by_key ∉ docKeys rest2) :
    stepRK key by_key key d_val (pre ++ (key, d_val) :: rest2)
      = (pre ++ rest2) ++ [(by_key, d_val)] := by
  have hlook : lookupDoc (pre ++ (key, d_val) :: rest2) key = some d_val := by
    rw [lookupDoc_append_left pre _ key hkpre, lookupDoc, if_pos rfl]
  have herase : eraseKey (pre ++ (key, d_val) :: rest2) key = pre ++ rest2 := by
    rw [eraseKey_append_left pre _ key hkpre, eraseKey, if_pos rfl]
  have hset : setItem (pre ++ rest2) by_key d_val = (pre ++ rest2) ++ [(by_key, d_val)] := by
    apply setItem_notmem
    rw [docKeys_append, List.mem_append]
    rintro (hm | hm)
    · exact hbypre hm
    · exact hbyr hm
  rw [stepRK_nonobj key by_key key d_val _ hobj, if_pos rfl, hlook, herase]
  exact hset

theorem lookupDoc_cons_self (k : String) (v : Value) (d : Doc) :
    lookupDoc ((k, v) :: d) k = some v := by
  rw [lookupDoc, if_pos rfl]

theorem dollarTail_nil (key by_key : String) : dollarTail key by_key [] = [] := rfl

theorem dollarTail_cons_key (key by_key : String) (v : Value) (rest : Doc) :
    dollarTail key by_key ((key, v) :: rest) = [(by_key, v)] := by
  simp [dollarTail, lookupDoc]

theorem dollarTail_cons_ne (key by_key k : String) (v : Value) (rest : Doc)
    (hne : k ≠ key) :
    dollarTail key by_key ((k, v) :: rest) = dollarTail key by_key rest := by
  simp [dollarTail, lookupDoc, hne]

theorem dollarTail_eq_nil (key by_key : String) (d : Doc)
    (h : key ∉ docKeys d) : dollarTail key by_key d = [] := by
  simp [dollarTail, lookupDoc_eq_none d key h]

theorem replTransEntries_cons_key (key by_key : String) (v : Value) (rest : List (String × Value)) :
    replTransEntries key by_key ((key, v) :: rest) = replTransEntries key by_key rest := by
  rw [replTransEntries, if_pos rfl]

theorem replTransEntries_cons_obj (key by_key k : String) (sub : List (String × Value))
    (rest : List (String × Value)) (hne : k ≠ key) :
    replTransEntries key by_key ((k, Value.obj sub) :: rest)
      = (k, Value.obj (replTrans key by_key sub)) :: replTransEntries key by_key rest := by
  rw [replTransEntries, if_neg hne, replTransVal, replTrans]

theorem replTransEntries_cons_nonobj (key by_key k : String) (v : Value)
    (rest : List (String × Value)) (hne : k ≠ key) (hobj : isObjV v = false) :
    replTransEntries key by_key ((k, v) :: rest)
      = (k, v) :: replTransEntries key by_key rest := by
  rw [replTransEntries, if_neg hne]
  cases v
  case obj sub => simp [isObjV] at hobj
  all_goals rfl

/-- On a safe current dict the `_replace_keys` loop computes the reference
transform: entries keep their order with dict values transformed
recursively, and the reserved entry is popped and re-appended under
`by_key` at the end.  `pre` is the already-processed prefix, `tail` a
possible already-appended reserved entry. -/
theorem replaceKeysAux_safeN (key by_key : String) (hkb : by_key ≠ key) :
    ∀ (n : Nat) (rest : List (String × Value)) (pre tail : Doc),
      sizeOf rest < n →
      (docKeys (pre ++ rest ++ tail)).Nodup →
      by_key ∉ docKeys pre →
      by_key ∉ docKeys rest →
      (key ∈ docKeys rest → tail = []) →
      safeEntries key by_key rest = true →
      replaceKeysAux key by_key rest (pre ++ rest ++ tail)
        = pre ++ replTransEntries key by_key rest ++ tail ++ dollarTail key by_key rest := by
  intro n
  induction n using Nat.strong_induction_on with
  | _ n ih => ?_
  intro rest pre tail hsize h1 h2 h3 h4 h5
  cases rest with
  | nil =>
    simp [replaceKeysAux, replTransEntries, dollarTail, lookupDoc]
  | cons hd rest2 =>
    obtain ⟨d_key, d_val⟩ := hd
    have h1m : (d_key :: (docKeys pre ++ (docKeys rest2 ++ docKeys tail))).Nodup := by
      rw [← List.nodup_middle]
      simpa [docKeys_append] using h1
    rw [List.nodup_cons] at h1m
    obtain ⟨hdk_not, h1r⟩ := h1m
    have hdk_pre : d_key ∉ docKeys pre := fun hm => hdk_not (List.mem_append_left _ hm)
    have hdk_rest2 : d_key ∉ docKeys rest2 := fun hm =>
      hdk_not (List.mem_append_right _ (List.mem_append_left _ hm))
    simp only [docKeys_cons, List.mem_cons] at h3
    push_neg at h3
    obtain ⟨hby_dk, h3r⟩ := h3
    rw [safeEntries, Bool.and_eq_true, Bool.and_eq_true] at h5
    obtain ⟨⟨h5g, h5v⟩, h5r⟩ := h5
    rw [replaceKeysAux_cons]
    by_cases hdkey : d_key = key
    · subst d_key
      have htail : tail = [] := h4 (by simp)
      subst htail
      have hobj : isObjV d_val = false := by
        cases d_val
        case obj sub => simp [isObjV] at h5g
        all_goals rfl
      have h1rr : (docKeys pre ++ docKeys rest2).Nodup := by
        simpa using h1r
      simp only [List.append_nil]
      rw [stepRK_key_nonobj key by_key d_val pre rest2 hobj hdk_pre h2 h3r]
      have hrec := ih (sizeOf ((key, d_val) :: rest2)) hsize rest2 pre [(by_key, d_val)]
        (by simp_arith)
        (by
          rw [docKeys_append, docKeys_append, docKeys_cons, docKeys_nil]
          exact nodup_append_one _ _ h1rr (by
            rw [List.mem_append]
            rintro (hm | hm)
            · exact h2 hm
            · exact h3r hm))
        h2 h3r (fun hm => absurd hm hdk_rest2) h5r
      rw [hrec, replTransEntries_cons_key, dollarTail_cons_key,
        dollarTail_eq_nil key by_key rest2 hdk_rest2]
      simp
    · have h4r : key ∈ docKeys rest2 → tail = [] := fun hm =>
        h4 (by simp [hm])
      have hobj_or : isObjV d_val = false ∨ ∃ sub, d_val = Value.obj sub := by
        cases d_val
        case obj sub => exact Or.inr ⟨sub, rfl⟩
        all_goals exact Or.inl rfl
      rcases hobj_or with hobj | ⟨sub, rfl⟩
      · -- a plain entry: the step leaves the dict unchanged
        rw [stepRK_nonobj key by_key d_key d_val _ hobj, if_neg hdkey]
        have hshape : pre ++ ((d_key, d_val) :: rest2) ++ tail
            = (pre ++ [(d_key, d_val)]) ++ rest2 ++ tail := by simp
        rw [hshape]
        have hrec := ih (sizeOf ((d_key, d_val) :: rest2)) hsize rest2 (pre ++ [(d_key, d_val)]) tail
          (by simp_arith)
          (by
            have heq : docKeys ((pre ++ [(d_key, d_val)]) ++ rest2 ++ tail)
                = docKeys (pre ++ ((d_key, d_val) :: rest2) ++ tail) := by
              simp [docKeys_append]
            rw [heq]
            exact h1)
          (by
            rw [docKeys_append, List.mem_append]
            rintro (hm | hm)
            · exact h2 hm
            · simp at hm
              exact hby_dk hm)
          h3r h4r h5r
        rw [hrec, replTransEntries_cons_nonobj key by_key d_key d_val rest2 hdkey hobj,
          dollarTail_cons_ne key by_key d_key d_val rest2 hdkey]
        simp
      · -- a nested dict: recurse into it, then continue the loop
        rw [safeVal, Bool.and_eq_true, Bool.and_eq_true] at h5v
        obtain ⟨⟨hsub_nd, hsub_by⟩, hsub_safe⟩ := h5v
        rw [decide_eq_true_eq] at hsub_nd hsub_by
        have hsub := ih (sizeOf ((d_key, Value.obj sub) :: rest2)) hsize sub [] []
          (by simp_arith) (by simpa using hsub_nd) (by simp) hsub_by (fun _ => rfl) hsub_safe
        simp only [List.nil_append, List.append_nil] at hsub
        have hstep : stepRK key by_key d_key (Value.obj sub)
            (pre ++ ((d_key, Value.obj sub) :: rest2) ++ tail)
            = (pre ++ [(d_key, Value.obj (replTrans key by_key sub))]) ++ rest2 ++ tail := by
          simp only [stepRK, if_neg hdkey]
          rw [show replaceKeys sub key by_key = replTrans key by_key sub from by
            rw [replaceKeys, hsub, replTrans]]
          rw [List.append_assoc, List.cons_append,
            setItem_append_left pre _ d_key _ hdk_pre, setItem, if_pos rfl]
          simp
        rw [hstep]
        have hrec := ih (sizeOf ((d_key, Value.obj sub) :: rest2)) hsize rest2
          (pre ++ [(d_key, Value.obj (replTrans key by_key sub))]) tail
          (by simp_arith)
          (by
            have heq : docKeys ((pre ++ [(d_key, Value.obj (replTrans key by_key sub))]) ++ rest2 ++ tail)
                = docKeys (pre ++ ((d_key, Value.obj sub) :: rest2) ++ tail) := by
              simp [docKeys_append]
            rw [heq]
            exact h1)
          (by
            rw [docKeys_append, List.mem_append]
            rintro (hm | hm)
            · exact h2 hm
            · simp at hm
              exact hby_dk hm)
          h3r h4r h5r
        rw [hrec, replTransEntries_cons_obj key by_key d_key sub rest2 hdkey,
          dollarTail_cons_ne key by_key d_key _ rest2 hdkey]
        simp

/-- `replaceKeysAux_safeN` without the fuel bound. -/
theorem replaceKeysAux_safe (key by_key : String) (hkb : by_key ≠ key)
    (rest : List (String × Value)) (pre tail : Doc)
    (h1 : (docKeys (pre ++ rest ++ tail)).Nodup)
    (h2 : by_key ∉ docKeys pre)
    (h3 : by_key ∉ docKeys rest)
    (h4 : key ∈ docKeys rest → tail = [])
    (h5 : safeEntries key by_key rest = true) :
    replaceKeysAux key by_key rest (pre ++ rest ++ tail)
      = pre ++ replTransEntries key by_key rest ++ tail ++ dollarTail key by_key rest :=
  replaceKeysAux_safeN key by_key hkb (sizeOf rest + 1) rest pre tail
    (Nat.lt_succ_self _) h1 h2 h3 h4 h5

theorem safeVal_nonobj (key by_key : String) (v : Value) (hobj : isObjV v = false) :
    safeVal key by_key v = true := by
  cases v
  case obj sub => simp [isObjV] at hobj
  all_goals rfl

theorem replTransVal_nonobj (key by_key : String) (v : Value) (hobj : isObjV v = false) :
    replTransVal key by_key v = v := by
  cases v
  case obj sub => simp [isObjV] at hobj
  all_goals rfl

theorem safeVal_obj_eq (key by_key : String) (sub : List (String × Value)) :
    safeVal key by_key (Value.obj sub) = safeDocB key by_key sub := rfl

theorem replTransVal_obj (key by_key : String) (sub : List (String × Value)) :
    replTransVal key by_key (Value.obj sub) = Value.obj (replTrans key by_key sub) := rfl

theorem safeDocB_eq_true (key by_key : String) (d : Doc) :
    safeDocB key by_key d = true ↔
      ((docKeys d).Nodup ∧ by_key ∉ docKeys d ∧ safeEntries key by_key d = true) := by
  rw [safeDocB]
  simp [Bool.and_eq_true, and_assoc]

theorem safeEntries_append (key by_key : String) (a b : List (String × Value)) :
    safeEntries key by_key (a ++ b) = true ↔
      (safeEntries key by_key a = true ∧ safeEntries key by_key b = true) := by
  induction a with
  | nil => simp [safeEntries]
  | cons hd rest ih =>
    obtain ⟨k, v⟩ := hd
    rw [List.cons_append]
    simp only [safeEntries, Bool.and_eq_true]
    rw [ih]
    tauto

theorem docKeys_replTransEntries (key by_key : String) (l : List (String × Value)) :
    docKeys (replTransEntries key by_key l)
      = (docKeys l).filter (fun x => x ≠ key) := by
  induction l with
  | nil => simp [replTransEntries]
  | cons hd rest ih =>
    obtain ⟨k, v⟩ := hd
    by_cases hk : k = key
    · subst hk
      rw [replTransEntries_cons_key]
      simp [ih]
    · rw [replTransEntries, if_neg hk]
      simp [ih, hk]

theorem docKeys_dollarTail (key by_key : String) (l : Doc) :
    docKeys (dollarTail key by_key l)
      = if (lookupDoc l key).isSome then [by_key] else [] := by
  rw [dollarTail]
  cases h : lookupDoc l key with
  | none => simp [h]
  | some w => simp [h]

theorem safeEntries_lookup_nonobj (key by_key : String) (l : List (String × Value))
    (w : Value) (hs : safeEntries key by_key l = true)
    (hl : lookupDoc l key = some w) : isObjV w = false := by
  induction l with
  | nil => simp [lookupDoc] at hl
  | cons hd rest ih =>
    obtain ⟨k, v⟩ := hd
    simp only [safeEntries, Bool.and_eq_true] at hs
    obtain ⟨⟨hg, _⟩, hrest⟩ := hs
    by_cases hk : k = key
    · subst hk
      rw [lookupDoc, if_pos rfl] at hl
      cases hl
      rw [Bool.or_eq_true] at hg
      rcases hg with hng | hne
      · simpa using hng
      · simp at hne
    · rw [lookupDoc, if_neg hk] at hl
      exact ih hrest hl

/-- Safety is preserved by the reference transform, with the roles of `key`
and `by_key` swapped (as needed for the read-back pass). -/
theorem safeTransN (key by_key : String) (hkb : by_key ≠ key) :
    ∀ (n : Nat) (l : List (String × Value)), sizeOf l < n →
      (by_key ∉ docKeys l → safeEntries key by_key l = true →
        safeEntries by_key key (replTransEntries key by_key l) = true)
      ∧ (safeDocB key by_key l = true →
        safeDocB by_key key (replTrans key by_key l) = true) := by
  intro n
  induction n using Nat.strong_induction_on with
  | _ n ih => ?_
  intro l hsize
  have hfst : by_key ∉ docKeys l → safeEntries key by_key l = true →
      safeEntries by_key key (replTransEntries key by_key l) = true := by
    intro hby hs
    induction l with
    | nil => rfl
    | cons hd rest ihl =>
      obtain ⟨k, v⟩ := hd
      simp only [docKeys_cons, List.mem_cons] at hby
      push_neg at hby
      obtain ⟨hby_k, hby_rest⟩ := hby
      simp only [safeEntries, Bool.and_eq_true] at hs
      obtain ⟨⟨hg, hv⟩, hrest⟩ := hs
      have hrest2 : safeEntries by_key key (replTransEntries key by_key rest) = true := by
        apply ihl ?_ hby_rest hrest
        calc sizeOf rest < sizeOf ((k, v) :: rest) := by simp_arith
        _ < n := hsize
      by_cases hk : k = key
      · subst hk
        rw [replTransEntries_cons_key]
        exact hrest2
      · rw [replTransEntries, if_neg hk]
        simp only [safeEntries, Bool.and_eq_true]
        refine ⟨⟨?_, ?_⟩, hrest2⟩
        · cases v with
          | obj sub =>
            rw [replTransVal_obj]
            simp [isObjV, Ne.symm hby_k]
          | str s => simp [replTransVal, isObjV]
          | int m => simp [replTransVal, isObjV]
          | bool b => simp [replTransVal, isObjV]
          | null => simp [replTransVal, isObjV]
          | time t => simp [replTransVal, isObjV]
          | arr a => simp [replTransVal, isObjV]
        · cases v with
          | obj sub =>
            rw [replTransVal_obj, safeVal_obj_eq]
            refine (ih (sizeOf ((k, Value.obj sub) :: rest))
              hsize sub (by simp_arith)).2 ?_
            rw [← safeVal_obj_eq key by_key sub]
            exact hv
          | str s => rfl
          | int m => rfl
          | bool b => rfl
          | null => rfl
          | time t => rfl
          | arr a => rfl
  refine ⟨hfst, ?_⟩
  intro hdoc
  rw [safeDocB_eq_true] at hdoc
  obtain ⟨hnd, hby, hs⟩ := hdoc
  rw [safeDocB_eq_true]
  have hkeysE : docKeys (replTransEntries key by_key l)
      = (docKeys l).filter (fun x => x ≠ key) := docKeys_replTransEntries key by_key l
  have hby_filter : by_key ∉ (docKeys l).filter (fun x => x ≠ key) := fun hm =>
    hby (List.mem_of_mem_filter hm)
  have hkey_filter : key ∉ (docKeys l).filter (fun x => x ≠ key) := by
    intro hm
    have hx := List.of_mem_filter hm
    simp at hx
  have hEnd : (docKeys (replTransEntries key by_key l)).Nodup := by
    rw [hkeysE]
    exact hnd.filter _
  have hEsafe := hfst hby hs
  cases hlk : lookupDoc l key with
  | none =>
    have hdt : dollarTail key by_key l = [] := by rw [dollarTail, hlk]
    refine ⟨?_, ?_, ?_⟩
    · rw [replTrans, hdt, List.append_nil]
      exact hEnd
    · rw [replTrans, hdt, List.append_nil, hkeysE]
      exact hkey_filter
    · rw [replTrans, hdt, List.append_nil]
      exact hEsafe
  | some w =>
    have hw : isObjV w = false := safeEntries_lookup_nonobj key by_key l w hs hlk
    have hdt : dollarTail key by_key l = [(by_key, w)] := by rw [dollarTail, hlk]
    refine ⟨?_, ?_, ?_⟩
    · rw [replTrans, hdt, docKeys_append, hkeysE]
      simp only [docKeys_cons, docKeys_nil]
      exact nodup_append_one _ _ (hnd.filter _) hby_filter
    · rw [replTrans, hdt, docKeys_append, hkeysE]
      simp only [docKeys_cons, docKeys_nil, List.mem_append, List.mem_singleton]
      rintro (hm | hm)
      · exact hkey_filter hm
      · exact hkb hm.symm
    · rw [replTrans, hdt, safeEntries_append]
      refine ⟨hEsafe, ?_⟩
      simp only [safeEntries, Bool.and_eq_true]
      refine ⟨⟨?_, ?_⟩, ?_⟩
      · simp [hw]
      · exact safeVal_nonobj by_key key w hw
      · trivial

/-- On a safe document `_replace_keys` computes the reference transform. -/
theorem replaceKeys_safe (key by_key : String) (hkb : by_key ≠ key) (d : Doc)
    (h : safeDocB key by_key d = true) :
    replaceKeys d key by_key = replTrans key by_key d := by
  rw [safeDocB_eq_true] at h
  obtain ⟨hnd, hby, hs⟩ := h
  have h2 := replaceKeysAux_safe key by_key hkb d [] [] (by simpa using hnd)
    (by simp) hby (fun _ => rfl) hs
  simpa [replaceKeys, replTrans] using h2

theorem mem_docKeys_replTrans (key by_key : String) (x : Doc) (k : String) :
    k ∈ docKeys (replTrans key by_key x) ↔
      ((k ∈ docKeys x ∧ k ≠ key) ∨ (k = by_key ∧ key ∈ docKeys x)) := by
  rw [replTrans, docKeys_append, docKeys_replTransEntries, List.mem_append,
    docKeys_dollarTail]
  constructor
  · rintro (hm | hm)
    · rw [List.mem_filter] at hm
      exact Or.inl ⟨hm.1, by simpa using hm.2⟩
    · split at hm
      · rename_i hsome
        rw [List.mem_singleton] at hm
        refine Or.inr ⟨hm, ?_⟩
        exact (lookupDoc_isSome_iff x key).1 hsome
      · simp at hm
  · rintro (⟨hmem, hne⟩ | ⟨rfl, hkey⟩)
    · left
      rw [List.mem_filter]
      exact ⟨hmem, by simpa using hne⟩
    · right
      rw [if_pos ((lookupDoc_isSome_iff x key).2 hkey)]
      simp

/-- Round trip on safe documents: the top-level key set is preserved. -/
theorem roundTrip_mem (d : Doc) (h : safeDocB "$" "_$" d = true) (k : String) :
    k ∈ docKeys (replaceKeys (replaceKeys d "$" "_$") "_$" "$") ↔ k ∈ docKeys d := by
  have hby : "_$" ∉ docKeys d := ((safeDocB_eq_true _ _ _).1 h).2.1
  have h1 : replaceKeys d "$" "_$" = replTrans "$" "_$" d :=
    replaceKeys_safe "$" "_$" (by decide) d h
  have h2 : safeDocB "_$" "$" (replTrans "$" "_$" d) = true :=
    (safeTransN "$" "_$" (by decide) (sizeOf d + 1) d (Nat.lt_succ_self _)).2 h
  have h3 : replaceKeys (replTrans "$" "_$" d) "_$" "$"
      = replTrans "_$" "$" (replTrans "$" "_$" d) :=
    replaceKeys_safe "_$" "$" (by decide) _ h2
  rw [h1, h3, mem_docKeys_replTrans]
  constructor
  · rintro (⟨hT1, hne2⟩ | ⟨rfl, hT1⟩)
    · rw [mem_docKeys_replTrans] at hT1
      rcases hT1 with ⟨hk, _⟩ | ⟨rfl, _⟩
      · exact hk
      · exact absurd rfl hne2
    · rw [mem_docKeys_replTrans] at hT1
      rcases hT1 with ⟨hm, _⟩ | ⟨_, hd2⟩
      · exact absurd hm hby
      · exact hd2
  · intro hk
    by_cases hq : k = "$"
    · subst hq
      refine Or.inr ⟨rfl, ?_⟩
      rw [mem_docKeys_replTrans]
      exact Or.inr ⟨rfl, hk⟩
    · refine Or.inl ⟨?_, ?_⟩
      · rw [mem_docKeys_replTrans]
        exact Or.inl ⟨hk, hq⟩
      · intro he
        subst he
        exact hby hk

/-- The top-level `output[k]` of a response document. -/
def lookupTop (v : Value) (k : String) : Option Value :=
  match v with
  | .obj f => lookupDoc f k
  | _ => none

theorem lookupDoc_noteStepObj (n meta k : String) (fields : Doc) (h : k ≠ meta) :
    lookupDoc (noteStepObj n meta fields) k = lookupDoc fields k := by
  rw [noteStepObj]
  have hf1 : ∀ fields1 : Doc, lookupDoc fields1 k = lookupDoc fields k →
      lookupDoc (match lookupDoc fields1 meta with
        | some (.obj mfields) =>
          setItem fields1 meta (Value.obj (setItem mfields "note" (.str n)))
        | _ => fields1) k = lookupDoc fields k := by
    intro fields1 hpres
    split
    · rw [lookupDoc_setItem_ne _ _ _ _ (Ne.symm h)]
      exact hpres
    · exact hpres
  by_cases hm : (lookupDoc fields meta).isSome
  · simp only [if_pos hm]
    exact hf1 fields rfl
  · simp only [if_neg hm]
    exact hf1 (setItem fields meta (.obj []))
      (lookupDoc_setItem_ne _ _ _ _ (Ne.symm h))

theorem lookupTop_noteStep (note : Option String) (meta k : String) (v : Value)
    (h : k ≠ meta) : lookupTop (noteStep note meta v) k = lookupTop v k := by
  cases note with
  | none => rfl
  | some n =>
    rw [noteStep]
    by_cases hn : n ≠ ""
    · rw [if_pos hn]
      cases v with
      | obj fields =>
        show lookupTop (Value.obj (noteStepObj n meta fields)) k = _
        rw [lookupTop, lookupTop]
        exact lookupDoc_noteStepObj n meta k fields h
      | str s => rfl
      | int n2 => rfl
      | bool b => rfl
      | null => rfl
      | time t => rfl
      | arr l => rfl
    · rw [if_neg hn]

theorem zip_eq_zip_take {α β : Type} :
    ∀ (a : List α) (b : List β),
      a.zip b = (a.take b.length).zip (b.take a.length) := by
  intro a
  induction a with
  | nil => intro b; simp
  | cons x xs ih =>
    intro b
    cases b with
    | nil => simp
    | cons y ys =>
      simp only [List.length_cons, List.take_succ_cons, List.zip_cons_cons]
      rw [ih ys]

/-! ### Claim theorems -/

/-- C7: when no document store is configured (`app.mdb is None`), every
cache operation degrades without error: `get` returns `None`, `all`
returns `[]`, and `update` / `update_many` return without performing any
write (the optional store stays absent and untouched). -/
theorem c7_no_store_degrades (cm : CacheManager) (table key : String)
    (force : Bool) (now : Int) (data : Doc) (keys : List String)
    (docs : List Doc) :
    cacheGet cm none table key force now = none
    ∧ cacheAll cm none table force now = []
    ∧ cacheUpdate none table key data now = none
    ∧ cacheUpdateMany none table keys docs now = none :=
  ⟨rfl, rfl, rfl, rfl⟩

/-- C9: `update_many(table, keys, data)` writes exactly the `zip(keys, data)`
pairs — surplus elements of the longer list are ignored (the call equals the
call on the two lists truncated to the common length) — and an empty `data`
performs no store operation even with a store configured (`not data` returns
before any update is built). -/
theorem c9_update_many_zip (s : Store) (table : String) (keys : List String)
    (docs : List Doc) (now : Int) :
    cacheUpdateMany (some s) table keys docs now
      = cacheUpdateMany (some s) table (keys.take docs.length)
          (docs.take keys.length) now
    ∧ cacheUpdateMany (some s) table keys [] now = some s := by
  constructor
  · cases docs with
    | nil => simp [cacheUpdateMany]
    | cons d ds =>
      cases keys with
      | nil =>
        simp [cacheUpdateMany]
      | cons k ks =>
        simp only [cacheUpdateMany]
        rw [← zip_eq_zip_take]
        simp
  · rfl

/-- C1: the gate's decision tree is the documented one, but the code has a
slip on one malformed-token input: a present, all-whitespace token of
length ≥ 10 passes the `str` and `Length(min=10)` validators and then
`lambda x: x.strip().split()[-1]` raises `IndexError` on the empty split —
an exception `validate_token` does not catch — instead of the 401 the
claim's decision tree requires.  The theorem evaluates the embedded gate at
that failing input (outcome `none` = no response produced) and, for
contrast, at neighbouring inputs where the documented tree is followed. -/
theorem c1_gate_whitespace_token_crash :
    validate_token none ⟨true, fun _ => none, fun _ => true⟩ (some "          ") = none
    ∧ validateTokenValue (some "          ") = TokenValidation.error
    ∧ validate_token none ⟨false, fun _ => none, fun _ => true⟩ (some "          ")
        = some (200, none)
    ∧ validate_token none ⟨true, fun _ => none, fun _ => true⟩ none = some (401, none)
    ∧ validate_token none ⟨true, fun _ => none, fun _ => true⟩ (some "a b") = some (401, none)
    ∧ validate_token none ⟨true, fun _ => none, fun _ => true⟩ (some "abcDEF1234")
        = some (403, none) :=
  ⟨by decide, by decide, by decide, by decide, by decide, by decide⟩

/-- C4 counterexample: the claim says the filter check uses the pre-rename
key, but `format_output` renames first (`key = self.key_repl[key]`) and then
checks `key in filter` with the renamed key.  With `key_repl = {"a": "b"}`,
document `{"a": 1}` and `filter = ["a"]`, the claim predicts the entry is
kept (as `{"b": 1}`), but the code drops it. -/
theorem c4_filter_postrename_counterexample :
    format_output [("a", "b")] (Value.obj [("a", Value.int 1)]) [] ["a"] []
        = Value.obj []
      ∧ format_output [("a", "b")] (Value.obj [("a", Value.int 1)]) [] ["a"] []
        ≠ Value.obj [("b", Value.int 1)] := by
  have h1 : format_output [("a", "b")] (Value.obj [("a", Value.int 1)]) [] ["a"] []
      = Value.obj [] := by
    simp [format_output, formatFields, lookupRepl, isObjV, isArrV]
  refine ⟨h1, ?_⟩
  rw [h1]
  intro h2
  simp at h2

/-- C4 amended: for every mapping entry the checks are applied in this
exact order — ignore (kept verbatim, no recursion) precedes remove
(dropped) precedes rename precedes recursion into dict/list values
precedes the filter check, where the filter admits the **post-rename** key
(or an empty filter). -/
theorem c4_format_output_order (key_repl : List (String × String)) (k : String)
    (v : Value) (remove filter ignore : List String) :
    format_output key_repl (Value.obj [(k, v)]) remove filter ignore
      = Value.obj (
          if k ∈ ignore then [(k, v)]
          else if k ∈ remove then []
          else
            if filter.isEmpty ∨ lookupRepl key_repl k ∈ filter then
              [(lookupRepl key_repl k,
                if isObjV v || isArrV v then
                  format_output key_repl v remove filter ignore
                else v)]
            else []) := by
  by_cases h1 : k ∈ ignore
  · simp [format_output, formatFields, h1, setItem]
  · by_cases h2 : k ∈ remove
    · simp [format_output, formatFields, h1, h2]
    · by_cases h3 : filter = [] ∨ lookupRepl key_repl k ∈ filter
      · simp [format_output, formatFields, h1, h2, h3, setItem]
      · simp [format_output, formatFields, h1, h2, h3]

/-- C3 counterexample: the write-side transform escapes `$` to `_$` and the
read-side replaces `_$` by `$`, but the escape is not injective — a
document that already contains a literal `_$` key is left alone by the
write transform and then read back with that key changed to `$`, so the
round trip does not preserve the key set for every document. -/
theorem c3_roundtrip_counterexample :
    replaceKeys (replaceKeys [("_$", Value.int 1)] "$" "_$") "_$" "$"
        = [("$", Value.int 1)]
      ∧ docKeys (replaceKeys (replaceKeys [("_$", Value.int 1)] "$" "_$") "_$" "$")
        ≠ docKeys [("_$", Value.int 1)] := by
  have h1 : replaceKeys (replaceKeys [("_$", Value.int 1)] "$" "_$") "_$" "$"
      = [("$", Value.int 1)] := by
    simp [replaceKeys, replaceKeysAux, lookupDoc, setItem, eraseKey]
  refine ⟨h1, ?_⟩
  rw [h1]
  intro h2
  simp [docKeys] at h2

/-- C3 amended: for every document in which, along chains of nested
mappings, the keys at each level are distinct, no key is `_$`, and every
`$` key maps to a non-mapping value, applying the write-side transform
(`$` → `_$`) and then the read-side transform (`_$` → `$`) yields a
document whose top-level key set equals the original document's key set —
in particular a reserved `$` key reads back unchanged.  (Without the
restrictions the round trip can change keys: a literal `_$` key reads back
as `$`, and a mapping-valued `$` key leaves both `$` and `_$` behind after
the write transform.) -/
theorem c3_roundtrip_amended (d : Doc) (h : safeDocB "$" "_$" d = true)
    (k : String) :
    k ∈ docKeys (replaceKeys (replaceKeys d "$" "_$") "_$" "$") ↔ k ∈ docKeys d :=
  roundTrip_mem d h k

theorem c3_roundtrip_amended_witness :
    safeDocB "$" "_$" [("$", Value.int 2), ("a", Value.obj [("$", Value.str "x")])] = true
    ∧ ("$" ∈ docKeys (replaceKeys (replaceKeys
          [("$", Value.int 2), ("a", Value.obj [("$", Value.str "x")])] "$" "_$") "_$" "$")
        ↔ "$" ∈ docKeys [("$", Value.int 2), ("a", Value.obj [("$", Value.str "x")])]) :=
  ⟨by rfl, c3_roundtrip_amended _ (by rfl) "$"⟩

/-- C10: the cache's key sanitization recurses only through chains of
nested mappings — a list value is never entered or modified, so a mapping
containing a `$` key that sits inside a list value keeps that key
unsanitized on write, and symmetrically a `_$` key inside a list-nested
mapping is left unrestored on read: the whole list value is preserved
verbatim by both transforms. -/
theorem c10_list_values_untouched (d : Doc) (hnd : (docKeys d).Nodup)
    (k : String) (l : List Value) (m : List (String × Value)) (v : Value)
    (hk1 : k ≠ "$") (hk2 : k ≠ "_$")
    (hl : lookupDoc d k = some (Value.arr l))
    (hm : Value.obj m ∈ l) (hv : ("$", v) ∈ m ∨ ("_$", v) ∈ m) :
    lookupDoc (replaceKeys d "$" "_$") k = some (Value.arr l)
    ∧ lookupDoc (replaceKeys d "_$" "$") k = some (Value.arr l) := by
  have hsnap : ∀ w : Value, (k, w) ∈ d → isObjV w = false := by
    intro w hw
    have hlw := lookupDoc_of_mem_nodup d k w hnd hw
    rw [hl] at hlw
    cases hlw
    rfl
  exact ⟨replaceKeysAux_preserves "$" "_$" k (Value.arr l) hk1 hk2 d d hsnap hl,
    replaceKeysAux_preserves "_$" "$" k (Value.arr l) hk2 hk1 d d hsnap hl⟩

theorem c10_list_values_untouched_witness :
    lookupDoc (replaceKeys [("a", Value.arr [Value.obj [("$", Value.int 1)]]),
        ("$", Value.int 2)] "$" "_$") "a"
      = some (Value.arr [Value.obj [("$", Value.int 1)]]) :=
  (c10_list_values_untouched
    [("a", Value.arr [Value.obj [("$", Value.int 1)]]), ("$", Value.int 2)]
    (by decide) "a" [Value.obj [("$", Value.int 1)]] [("$", Value.int 1)]
    (Value.int 1) (by decide) (by decide) rfl
    (List.mem_cons_self _ _) (Or.inl (List.mem_cons_self _ _))).1

theorem has_expired_some (cm : CacheManager) (t : PyDateTime) (table : String)
    (now : Int) :
    has_expired cm (some t) table now
      = decide (now > (t.wall - t.tzOffset.getD 0) + (ttlOf cm table : Int)) := by
  obtain ⟨w, tz⟩ := t
  cases tz with
  | none => simp [has_expired]
  | some off => simp [has_expired]

theorem include_item_some (cm : CacheManager) (d : Doc) (table : String)
    (now : Int) :
    _include_item cm (some d) table now
      = !has_expired cm (getTimestamp d) table now := by
  rw [_include_item]
  cases hb : has_expired cm (getTimestamp d) table now <;> simp [hb]

/-- C2: with a store configured, a stored record is returned by `get` —
un-escaped — always under `force`; without `force` it is returned iff its
timestamp `t` satisfies `now ≤ t + TTL(table)`, where the UTC instant of
`t` is `t.wall - t.tzOffset.getD 0`: a timezone-naive timestamp
(`tzOffset = none`) is compared as if it were UTC, exactly the
`replace(tzinfo=timezone.utc)` step of `has_expired`.  A record without a
datetime timestamp is never returned without `force`. -/
theorem c2_cache_get_staleness (cm : CacheManager) (s : Store)
    (table key : String) (rec : Doc) (now : Int)
    (h : findOne s (pyLower table) key = some rec) :
    cacheGet cm (some s) table key true now = some (replaceKeys rec "_$" "$")
    ∧ (∀ t : PyDateTime, getTimestamp (replaceKeys rec "_$" "$") = some t →
        (cacheGet cm (some s) table key false now = some (replaceKeys rec "_$" "$")
          ↔ now ≤ (t.wall - t.tzOffset.getD 0) + (ttlOf cm table : Int)))
    ∧ (getTimestamp (replaceKeys rec "_$" "$") = none →
        cacheGet cm (some s) table key false now = none) := by
  refine ⟨?_, ?_, ?_⟩
  · simp [cacheGet, h]
  · intro t ht
    have hii : _include_item cm (some (replaceKeys rec "_$" "$")) table now
        = !decide (now > (t.wall - t.tzOffset.getD 0) + (ttlOf cm table : Int)) := by
      rw [include_item_some, ht, has_expired_some]
    constructor
    · intro hsome
      by_cases hc : now ≤ (t.wall - t.tzOffset.getD 0) + (ttlOf cm table : Int)
      · exact hc
      · exfalso
        have hfalse : _include_item cm (some (replaceKeys rec "_$" "$")) table now = false := by
          rw [hii]
          simp
          omega
        simp [cacheGet, h, hfalse] at hsome
    · intro hle
      have htrue : _include_item cm (some (replaceKeys rec "_$" "$")) table now = true := by
        rw [hii]
        simp
        omega
      simp [cacheGet, h, htrue]
  · intro hnone
    have hfalse : _include_item cm (some (replaceKeys rec "_$" "$")) table now = false := by
      rw [include_item_some, hnone]
      rfl
    simp [cacheGet, h, hfalse]

theorem c2_cache_get_staleness_witness :
    findOne [("metar", "KJFK", [("timestamp", Value.time ⟨100, some 0⟩)])]
        (pyLower "Metar") "KJFK" = some [("timestamp", Value.time ⟨100, some 0⟩)]
    ∧ (cacheGet (mkCacheManager none) (some [("metar", "KJFK",
          [("timestamp", Value.time ⟨100, some 0⟩)])]) "Metar" "KJFK" false 102
        = some (replaceKeys [("timestamp", Value.time ⟨100, some 0⟩)] "_$" "$")
      ↔ (102 : Int) ≤ (100 - (some (0 : Int)).getD 0) + (ttlOf (mkCacheManager none) "Metar" : Int)) :=
  ⟨by rfl,
    ((c2_cache_get_staleness (mkCacheManager none) _ "Metar" "KJFK"
      [("timestamp", Value.time ⟨100, some 0⟩)] 102 (by rfl)).2.1
      ⟨100, some 0⟩ (by simp [replaceKeys, replaceKeysAux, getTimestamp, lookupDoc]))⟩

theorem findOne_foldUpsert_notmem (tl : String) (now : Int) :
    ∀ (ps : List (String × Doc)) (s : Store) (k : String),
      k ∉ ps.map Prod.fst →
      findOne (ps.foldl
          (fun st kd => upsertOne st tl kd.1 (_process_data kd.2 now)) s) tl k
        = findOne s tl k := by
  intro ps
  induction ps with
  | nil => intro s k _; rfl
  | cons hd rest ih =>
    intro s k hk
    obtain ⟨k0, d0⟩ := hd
    simp only [List.map_cons, List.mem_cons] at hk
    push_neg at hk
    rw [List.foldl_cons, ih _ k hk.2, findOne_upsertOne_ne]
    intro hcon
    exact hk.1 hcon.2.symm

theorem findOne_foldUpsert (tl : String) (now : Int) :
    ∀ (ps : List (String × Doc)) (s : Store) (k : String),
      k ∈ ps.map Prod.fst →
      (∀ p ∈ ps, (docKeys p.2).Nodup) →
      ∃ d, findOne (ps.foldl
          (fun st kd => upsertOne st tl kd.1 (_process_data kd.2 now)) s) tl k = some d
        ∧ lookupDoc d "timestamp" = some (Value.time ⟨now, some 0⟩) := by
  intro ps
  induction ps with
  | nil => intro s k hk _; simp at hk
  | cons hd rest ih =>
    intro s k hk hnd
    obtain ⟨k0, d0⟩ := hd
    by_cases hkr : k ∈ rest.map Prod.fst
    · exact ih _ k hkr (fun p hp => hnd p (List.mem_cons_of_mem _ hp))
    · have hk0 : k0 = k := by
        simp only [List.map_cons, List.mem_cons] at hk
        rcases hk with hk | hk
        · exact hk.symm
        · exact absurd hk hkr
      subst hk0
      obtain ⟨e, he⟩ := findOne_upsertOne s tl k0 (_process_data d0 now)
      refine ⟨mergeSet e (_process_data d0 now), ?_, ?_⟩
      · rw [List.foldl_cons, findOne_foldUpsert_notmem tl now rest _ k0 hkr]
        exact he
      · refine lookupDoc_mergeSet _ _ _ _ ?_ (lookupDoc_setItem_self _ _ _)
        exact nodup_setItem _ _ _ (nodup_replaceKeys d0 "$" "_$"
          (hnd (k0, d0) (List.mem_cons_self _ _)))

/-- C8: on every write through `update` or `update_many`, the stored
record's `timestamp` field is set by the cache to the current UTC time
(`_process_data` stamps it after escaping keys), overwriting any timestamp
the caller supplied in the document — so the stored value is
`Value.time ⟨now, some 0⟩` regardless of `data`. -/
theorem c8_cache_stamps_timestamp (s : Store) (table key : String)
    (data : Doc) (now : Int) (hnd : (docKeys data).Nodup) :
    (∀ s2, cacheUpdate (some s) table key data now = some s2 →
      ∃ d, findOne s2 (pyLower table) key = some d
        ∧ lookupDoc d "timestamp" = some (Value.time ⟨now, some 0⟩))
    ∧ (∀ (keys : List String) (docs : List Doc) (s2 : Store),
        cacheUpdateMany (some s) table keys docs now = some s2 →
        (∀ d0 ∈ docs, (docKeys d0).Nodup) →
        ∀ k ∈ (keys.zip docs).map Prod.fst,
          ∃ d, findOne s2 (pyLower table) k = some d
            ∧ lookupDoc d "timestamp" = some (Value.time ⟨now, some 0⟩)) := by
  constructor
  · intro s2 hs2
    have hs2e : s2 = upsertOne s (pyLower table) key (_process_data data now) := by
      simpa [cacheUpdate] using hs2.symm
    subst hs2e
    obtain ⟨e, he⟩ := findOne_upsertOne s (pyLower table) key (_process_data data now)
    refine ⟨_, he, ?_⟩
    refine lookupDoc_mergeSet _ _ _ _ ?_ (lookupDoc_setItem_self _ _ _)
    exact nodup_setItem _ _ _ (nodup_replaceKeys data "$" "_$" hnd)
  · intro keys docs s2 hs2 hdocs k hk
    by_cases hde : docs.isEmpty
    · have hdn : docs = [] := by
        cases docs with
        | nil => rfl
        | cons x xs => simp at hde
      subst hdn
      simp at hk
    · have hs2e : s2 = (keys.zip docs).foldl
          (fun st kd => upsertOne st (pyLower table) kd.1 (_process_data kd.2 now)) s := by
        simpa [cacheUpdateMany, hde] using hs2.symm
      subst hs2e
      refine findOne_foldUpsert (pyLower table) now (keys.zip docs) s k hk ?_
      intro p hp
      exact hdocs p.2 (List.of_mem_zip hp).2

theorem c8_cache_stamps_timestamp_witness :
    ∃ d, findOne (upsertOne [] (pyLower "metar") "KJFK"
        (_process_data [("timestamp", Value.str "caller"), ("raw", Value.int 3)] 55))
        (pyLower "metar") "KJFK" = some d
      ∧ lookupDoc d "timestamp" = some (Value.time ⟨55, some 0⟩) :=
  (c8_cache_stamps_timestamp [] "metar" "KJFK"
    [("timestamp", Value.str "caller"), ("raw", Value.int 3)] 55 (by decide)).1
    _ rfl

/-- C6: in `make_response`, a `timestamp` field (the current UTC datetime)
is injected at the top level of the output document iff the post-format
document contains an `error` key and does not contain the meta key; when
the condition fails — in particular when the document already carries the
meta block — the top-level `timestamp` entry is exactly whatever the
formatted document already had (no injection).  The meta key is assumed
distinct from `"timestamp"` (with `meta = "timestamp"` the note block
itself would occupy that name). -/
theorem c6_error_timestamp_injection (key_repl : List (String × String))
    (key_remv : List String) (note : Option String) (output : Value)
    (params : Params) (meta : String) (now : Int) (fs : List (String × Value))
    (hmeta : meta ≠ "timestamp")
    (hfo : format_output key_repl output (params.remove ++ key_remv)
        params.filter [meta] = Value.obj fs) :
    ((containsTop (Value.obj fs) "error" ∧ ¬ containsTop (Value.obj fs) meta) →
      lookupTop (make_response key_repl key_remv note output params meta now)
          "timestamp" = some (Value.time ⟨now, some 0⟩))
    ∧ (¬(containsTop (Value.obj fs) "error" ∧ ¬ containsTop (Value.obj fs) meta) →
      lookupTop (make_response key_repl key_remv note output params meta now)
          "timestamp" = lookupDoc fs "timestamp") := by
  have hmr : make_response key_repl key_remv note output params meta now
      = noteStep note meta
          (if containsTop (Value.obj fs) "error" ∧ ¬ containsTop (Value.obj fs) meta
            then setTopKey (Value.obj fs) "timestamp" (Value.time ⟨now, some 0⟩)
            else Value.obj fs) := by
    simp only [make_response]
    rw [hfo]
  constructor
  · intro hc
    rw [hmr, if_pos hc, lookupTop_noteStep _ _ _ _ (Ne.symm hmeta)]
    show lookupDoc (setItem fs "timestamp" (Value.time ⟨now, some 0⟩)) "timestamp" = _
    exact lookupDoc_setItem_self _ _ _
  · intro hc
    rw [hmr, if_neg hc, lookupTop_noteStep _ _ _ _ (Ne.symm hmeta)]
    rfl

theorem c6_error_timestamp_injection_witness :
    ("meta" : String) ≠ "timestamp"
    ∧ format_output [] (Value.obj [("error", Value.str "bad station")])
        (Params.remove ⟨"json", [], []⟩ ++ []) (Params.filter ⟨"json", [], []⟩) ["meta"]
      = Value.obj [("error", Value.str "bad station")]
    ∧ lookupTop (make_response [] [] none (Value.obj [("error", Value.str "bad station")])
        ⟨"json", [], []⟩ "meta" 7) "timestamp" = some (Value.time ⟨7, some 0⟩) := by
  refine ⟨by decide, ?_, ?_⟩
  · simp [format_output, formatFields, setItem, lookupRepl, isObjV, isArrV]
  · refine (c6_error_timestamp_injection [] [] none
      (Value.obj [("error", Value.str "bad station")]) ⟨"json", [], []⟩ "meta" 7
      [("error", Value.str "bad station")] (by decide) ?_).1 ?_
    · simp [format_output, formatFields, setItem, lookupRepl, isObjV, isArrV]
    · refine ⟨?_, ?_⟩
      · simp [containsTop, lookupDoc]
      · simp [containsTop, lookupDoc]

/-- C5 counterexample: a 429 (rate-limit) rejection does **not** carry only
the standard message — `make_example_response` loads the endpoint example
for every error code and merges the message into it, so with an endpoint
example `{"sample": 1}` the 429 payload still contains the example's
`sample` key. -/
theorem c5_429_example_counterexample :
    lookupTop (make_example_response none (Value.obj [("sample", Value.int 1)])
        429 (some ⟨true, false, "pro"⟩)) "sample" = some (Value.int 1) := by
  simp [make_example_response, validationErrorMessage, valueTruthy, setItem,
    lookupTop, lookupDoc, Token.valid_type]

/-- C5 amended: a 429 rejection substitutes and merges the endpoint example
payload exactly like other rejection codes; what distinguishes it from 403
is only the message — the standard rate-limit message (plus the example
suffix when the example is non-empty), with no token-state specialization:
the result is independent of the token and of the endpoint's plan types. -/
theorem c5_429_example_amended (plan_types : Option (List String))
    (fields : List (String × Value)) (token : Option Token) :
    make_example_response plan_types (Value.obj fields) 429 token
      = Value.obj (setItem fields "meta" (Value.obj [("validation_error",
          Value.str (if fields.isEmpty then validationErrorMessage 429
            else validationErrorMessage 429
              ++ ". Here\x27s an example response for testing purposes"))])) := by
  cases fields with
  | nil => simp [make_example_response, valueTruthy]
  | cons f fs => simp [make_example_response, valueTruthy]

end Avwx
